import Mathlib

/-
Verification of the options-pricing system (black_scholes.py, greeks.py,
monte_carlo.py) against its natural-language specification.

Modelling conventions for the shallow embedding:
- Python floats are modelled as real numbers.
- Operations that produce a non-finite IEEE value in the source (numpy
  division by zero, numpy log/sqrt of an argument outside the domain) are
  modelled as an explicit error value `PyError.nonFiniteResult`; plain
  Python exceptions (ZeroDivisionError, math-module ValueError, reading an
  unbound local variable) are modelled by their own error constructors.
- scipy's norm.cdf / norm.pdf are modelled as the exact standard normal
  cumulative distribution function / density over the reals.
-/

open Real MeasureTheory Set

/-- Run-time failures of the Python source that the embedding makes explicit.
The source never constructs an InvalidArgument-style error; the constructor
exists so that statements about the spec's error taxonomy are expressible. -/
inductive PyError
  | nonFiniteResult
  | unboundLocal
  | valueError
  | zeroDivision
  | invalidArgument
  deriving DecidableEq

/-- Plain Python float division: raises ZeroDivisionError on a zero divisor. -/
noncomputable def py_div (a b : ℝ) : Except PyError ℝ :=
  if b = 0 then .error .zeroDivision else .ok (a / b)

/-- Division of numpy float64 scalars: a zero divisor yields inf or nan
(non-finite), not an exception. -/
noncomputable def np_div (a b : ℝ) : Except PyError ℝ :=
  if b = 0 then .error .nonFiniteResult else .ok (a / b)

/-- numpy log on a scalar: a non-positive argument yields -inf or nan. -/
noncomputable def np_log (x : ℝ) : Except PyError ℝ :=
  if x ≤ 0 then .error .nonFiniteResult else .ok (Real.log x)

/-- numpy sqrt on a scalar: a negative argument yields nan. -/
noncomputable def np_sqrt (x : ℝ) : Except PyError ℝ :=
  if x < 0 then .error .nonFiniteResult else .ok (Real.sqrt x)

/-- math.log: raises ValueError on a non-positive argument. -/
noncomputable def math_log (x : ℝ) : Except PyError ℝ :=
  if x ≤ 0 then .error .valueError else .ok (Real.log x)

/-- math.sqrt: raises ValueError on a negative argument. -/
noncomputable def math_sqrt (x : ℝ) : Except PyError ℝ :=
  if x < 0 then .error .valueError else .ok (Real.sqrt x)

/-- Model of Python str.lower(): basic-latin lowercasing, applied
characterwise (equivalent to String.toLower, in a form the kernel reduces). -/
def strLower (s : String) : String :=
  String.mk (s.data.map Char.toLower)

/-- np.mean of a list: the mean of an empty array is nan. -/
noncomputable def np_mean (l : List ℝ) : Except PyError ℝ :=
  if l.isEmpty then .error .nonFiniteResult else .ok (l.sum / l.length)

@[simp]
lemma ok_bind {α β : Type} (a : α) (f : α → Except PyError β) :
    (Except.ok a >>= f) = f a := rfl

@[simp]
lemma error_bind {α β : Type} (e : PyError) (f : α → Except PyError β) :
    ((Except.error e : Except PyError α) >>= f) = .error e := rfl

/-- Standard normal density, the model of scipy's norm.pdf. -/
noncomputable def normPdf (x : ℝ) : ℝ :=
  Real.exp (-(1 / 2) * x ^ 2) / Real.sqrt (2 * Real.pi)

/-- Standard normal cumulative distribution function, the model of scipy's
norm.cdf. -/
noncomputable def normCdf (x : ℝ) : ℝ :=
  ∫ t in Set.Iic x, normPdf t

lemma normPdf_pos (x : ℝ) : 0 < normPdf x := by
  apply div_pos (Real.exp_pos _)
  exact Real.sqrt_pos.mpr (by positivity)

lemma normPdf_even (x : ℝ) : normPdf (-x) = normPdf x := by
  simp [normPdf]

lemma integrable_normPdf : Integrable normPdf := by
  have h := integrable_exp_neg_mul_sq (b := 1 / 2) (by norm_num)
  unfold normPdf
  exact h.div_const (Real.sqrt (2 * Real.pi))

lemma integral_normPdf : (∫ x, normPdf x) = 1 := by
  have h : (∫ x, Real.exp (-(1 / 2) * x ^ 2)) = Real.sqrt (Real.pi / (1 / 2)) :=
    integral_gaussian (1 / 2)
  have h2 : Real.pi / (1 / 2) = 2 * Real.pi := by ring
  have hpos : (0 : ℝ) < Real.sqrt (2 * Real.pi) :=
    Real.sqrt_pos.mpr (by positivity)
  calc (∫ x, normPdf x)
      = (∫ x, Real.exp (-(1 / 2) * x ^ 2)) / Real.sqrt (2 * Real.pi) := by
        unfold normPdf
        exact integral_div _ _
    _ = 1 := by
        rw [h, h2, div_self hpos.ne']

lemma normCdf_add_neg (x : ℝ) : normCdf x + normCdf (-x) = 1 := by
  have hneg : normCdf (-x) = ∫ t in Set.Ioi x, normPdf t := by
    have h1 : (∫ t in Set.Iic (-x), normPdf (-t)) = ∫ t in Set.Ioi x, normPdf t := by
      simpa using integral_comp_neg_Iic (-x) normPdf
    have h2 : (∫ t in Set.Iic (-x), normPdf (-t)) = ∫ t in Set.Iic (-x), normPdf t :=
      setIntegral_congr_fun measurableSet_Iic (fun t _ => normPdf_even t)
    rw [normCdf, ← h2, h1]
  rw [normCdf, hneg]
  rw [intervalIntegral.integral_Iic_add_Ioi integrable_normPdf.integrableOn
    integrable_normPdf.integrableOn]
  exact integral_normPdf

lemma normCdf_neg (x : ℝ) : normCdf (-x) = 1 - normCdf x := by
  have := normCdf_add_neg x
  linarith

lemma normCdf_nonneg (x : ℝ) : 0 ≤ normCdf x :=
  setIntegral_nonneg measurableSet_Iic (fun t _ => (normPdf_pos t).le)

lemma normCdf_le_one (x : ℝ) : normCdf x ≤ 1 := by
  have h := MeasureTheory.setIntegral_le_integral (s := Set.Iic x) integrable_normPdf
    (Filter.Eventually.of_forall fun t => (normPdf_pos t).le)
  rw [integral_normPdf] at h
  exact h

lemma normCdf_strictMonoOn {a b : ℝ} (hab : a < b) : normCdf a < normCdf b := by
  have hsub : normCdf b - normCdf a = ∫ t in a..b, normPdf t :=
    intervalIntegral.integral_Iic_sub_Iic integrable_normPdf.integrableOn
      integrable_normPdf.integrableOn
  have hpos : 0 < ∫ t in a..b, normPdf t :=
    intervalIntegral.intervalIntegral_pos_of_pos
      integrable_normPdf.intervalIntegrable normPdf_pos hab
  linarith

lemma normCdf_zero : normCdf 0 = 1 / 2 := by
  have h := normCdf_add_neg 0
  rw [neg_zero] at h
  linarith

/-- Named record for the dictionary of Greeks returned by the source. -/
structure Greeks where
  delta : ℝ
  gamma : ℝ
  theta : ℝ
  vega : ℝ
  rho : ℝ

/-- Embedding of bs_pricing from src/black_scholes.py. The source computes
d1 and d2 unconditionally (no special case for a zero denominator), then
branches on option_type.lower(); if neither branch matches, the local
bs_price is never assigned and the final return raises UnboundLocalError. -/
noncomputable def bs_pricing (S K T r sigma : ℝ) (option_type : String) (q : ℝ) :
    Except PyError ℝ := do
  let ratio ← py_div S K
  let logSK ← np_log ratio
  let sqrtT ← np_sqrt T
  let d1 ← np_div (logSK + (r - q + 0.5 * sigma ^ 2) * T) (sigma * sqrtT)
  let d2 := d1 - sigma * sqrtT
  if strLower option_type = "call" then
    pure (S * Real.exp (-q * T) * normCdf d1 - K * Real.exp (-r * T) * normCdf d2)
  else if strLower option_type = "put" then
    pure (K * Real.exp (-r * T) * normCdf (-d2) - S * Real.exp (-q * T) * normCdf (-d1))
  else
    .error .unboundLocal

/-- Embedding of the helper d_1 from src/greeks.py (math.log / math.sqrt,
plain float division). -/
noncomputable def d_1 (S K T r sigma q : ℝ) : Except PyError ℝ := do
  let ratio ← py_div S K
  let logSK ← math_log ratio
  let sqrtT ← math_sqrt T
  py_div (logSK + (r - q + 0.5 * sigma ^ 2) * T) (sigma * sqrtT)

/-- Embedding of the helper d_2 from src/greeks.py. -/
noncomputable def d_2 (S K T r sigma q : ℝ) : Except PyError ℝ := do
  let d1 ← d_1 S K T r sigma q
  let sqrtT ← math_sqrt T
  pure (d1 - sigma * sqrtT)

/-- Embedding of bs_greeks from src/greeks.py. The source evaluates the
branch-specific delta/theta/rho lines, then the shared gamma and vega lines,
then builds the dictionary; with an unrecognized option kind, the branch
lines are skipped but gamma and vega are still evaluated, and building the
dictionary raises UnboundLocalError on the unassigned delta. The repeated
d_1/d_2 calls of the source are deterministic, so they are bound once here. -/
noncomputable def bs_greeks (S K T r sigma : ℝ) (option_type : String) (q : ℝ) :
    Except PyError Greeks := do
  if strLower option_type = "call" then
    let d1 ← d_1 S K T r sigma q
    let d2 ← d_2 S K T r sigma q
    let sqrtT ← math_sqrt T
    let delta := Real.exp (-q * T) * normCdf d1
    let thetaTerm ← py_div (S * normPdf d1 * sigma * Real.exp (-q * T)) (2 * sqrtT)
    let theta := -(thetaTerm + q * S * normCdf d1 * Real.exp (-q * T)
      - r * K * Real.exp (-r * T) * normCdf d2)
    let rho := K * T * Real.exp (-r * T) * normCdf d2
    let gamma ← py_div (Real.exp (-q * T) * normPdf d1) (S * sigma * sqrtT)
    let vega := S * Real.exp (-q * T) * normPdf d1 * sqrtT / 100
    pure ⟨delta, gamma, theta, vega, rho⟩
  else if strLower option_type = "put" then
    let d1 ← d_1 S K T r sigma q
    let d2 ← d_2 S K T r sigma q
    let sqrtT ← math_sqrt T
    let delta := Real.exp (-q * T) * (normCdf d1 - 1)
    let thetaTerm ← py_div (S * normPdf d1 * sigma * Real.exp (-q * T)) (2 * sqrtT)
    let theta := -(thetaTerm - q * S * normCdf (-d1) * Real.exp (-q * T)
      + r * K * Real.exp (-r * T) * normCdf (-d2))
    let rho := -(K * T * Real.exp (-r * T) * normCdf (-d2))
    let gamma ← py_div (Real.exp (-q * T) * normPdf d1) (S * sigma * sqrtT)
    let vega := S * Real.exp (-q * T) * normPdf d1 * sqrtT / 100
    pure ⟨delta, gamma, theta, vega, rho⟩
  else
    let d1 ← d_1 S K T r sigma q
    let sqrtT ← math_sqrt T
    let _ ← py_div (Real.exp (-q * T) * normPdf d1) (S * sigma * sqrtT)
    .error .unboundLocal

/-- Embedding of the Newton-Raphson loop of implied_volatility from
src/black_scholes.py, with the loop counter as explicit fuel. Returns
some sigma on convergence; none models both falling out of the loop after
max_iter iterations and the break on a flat vega, which in the source both
continue into the bisection fallback. -/
noncomputable def newton_phase (market_price S K T r : ℝ) (option_type : String)
    (error_tolerance q : ℝ) : ℕ → ℝ → Except PyError (Option ℝ)
  | 0, _ => .ok none
  | fuel + 1, sigma => do
    let model_price ← bs_pricing S K T r sigma option_type q
    let g ← bs_greeks S K T r sigma option_type q
    let difference := model_price - market_price
    if |difference| < error_tolerance * max 1 market_price then
      pure (some sigma)
    else if g.vega < 1e-8 then
      pure none
    else
      newton_phase market_price S K T r option_type error_tolerance q fuel
        (max (min (sigma - difference / g.vega) 5) 1e-6)

/-- Embedding of the bisection fallback loop of implied_volatility from
src/black_scholes.py. -/
noncomputable def bisection_phase (market_price S K T r : ℝ) (option_type : String)
    (tolerance_price q : ℝ) : ℕ → ℝ → ℝ → Except PyError (Option ℝ)
  | 0, _, _ => .ok none
  | fuel + 1, low, high => do
    let mid := (low + high) / 2
    let price ← bs_pricing S K T r mid option_type q
    if |price - market_price| < tolerance_price then
      pure (some mid)
    else if price > market_price then
      bisection_phase market_price S K T r option_type tolerance_price q fuel low mid
    else
      bisection_phase market_price S K T r option_type tolerance_price q fuel mid high

/-- Embedding of implied_volatility from src/black_scholes.py: Newton-Raphson
from the initial guess 0.3, then bisection on [1e-6, 5.0], then None. -/
noncomputable def implied_volatility (market_price S K T r : ℝ) (option_type : String)
    (error_tolerance : ℝ) (max_iter : ℕ) (q : ℝ) : Except PyError (Option ℝ) := do
  let nres ← newton_phase market_price S K T r option_type error_tolerance q max_iter 0.3
  match nres with
  | some sigma => pure (some sigma)
  | none =>
    bisection_phase market_price S K T r option_type
      (error_tolerance * max 1 market_price) q max_iter 1e-6 5

/-- Terminal stock price of one geometric-Brownian-motion path, shared by the
Monte Carlo functions of the source. -/
noncomputable def gbm_terminal (S T r sigma q sqrtT z : ℝ) : ℝ :=
  S * Real.exp ((r - q - 0.5 * sigma ^ 2) * T + sigma * sqrtT * z)

/-- Embedding of mc_pricing from src/monte_carlo.py. The n standard-normal
draws of np.random.standard_normal(n) are passed in as the explicit list Z,
so the path count n of the source is Z.length. With an unrecognized option
kind the payoff array is never assigned and np.mean(option_payoff) raises
UnboundLocalError. -/
noncomputable def mc_pricing (S K T r sigma : ℝ) (option_type : String)
    (Z : List ℝ) (q : ℝ) : Except PyError ℝ := do
  let sqrtT ← np_sqrt T
  let final_stock_price := Z.map (gbm_terminal S T r sigma q sqrtT)
  let option_payoff ←
    if strLower option_type = "call" then
      pure (final_stock_price.map fun sT => max (sT - K) 0)
    else if strLower option_type = "put" then
      pure (final_stock_price.map fun sT => max (K - sT) 0)
    else
      (.error .unboundLocal : Except PyError (List ℝ))
  let m ← np_mean option_payoff
  pure (Real.exp (-r * T) * m)

/-- Embedding of mc_convergence from src/monte_carlo.py: one mc_pricing call
per requested path count, appended in input order. The fresh random draws of
each call are passed in as one list of normal draws per requested count. -/
noncomputable def mc_convergence (S K T r sigma : ℝ) (option_type : String)
    (q : ℝ) : List (List ℝ) → Except PyError (List ℝ)
  | [] => .ok []
  | Z :: rest => do
    let price ← mc_pricing S K T r sigma option_type Z q
    let prices ← mc_convergence S K T r sigma option_type q rest
    pure (price :: prices)

/-- Embedding of mc_greeks from src/greeks.py with the standard-normal draws
passed in as the explicit list Z. With an unrecognized option kind the first
payoff branch assigns nothing and np.mean(payoff) raises UnboundLocalError
before any Greek is computed; the later kind branches replicate the same
fallthrough even though it is unreachable by then. The numpy array division
by the scalar S in the pathwise delta is non-finite when S = 0. -/
noncomputable def mc_greeks (S K T r sigma : ℝ) (option_type : String)
    (Z : List ℝ) (h dt q : ℝ) : Except PyError Greeks := do
  let sqrtT ← np_sqrt T
  let final_stock_price := Z.map (gbm_terminal S T r sigma q sqrtT)
  let payoff ←
    if strLower option_type = "call" then
      pure (final_stock_price.map fun sT => max (sT - K) 0)
    else if strLower option_type = "put" then
      pure (final_stock_price.map fun sT => max (K - sT) 0)
    else
      (.error .unboundLocal : Except PyError (List ℝ))
  let payoffMean ← np_mean payoff
  let option_price := Real.exp (-r * T) * payoffMean
  let pathwise ←
    if strLower option_type = "call" then do
      if S = 0 then (.error .nonFiniteResult : Except PyError (ℝ × ℝ × ℝ)) else
      let dm ← np_mean (final_stock_price.map fun sT =>
        (if K < sT then (1 : ℝ) else 0) * sT / S)
      let vm ← np_mean (Z.map fun z =>
        (if K < gbm_terminal S T r sigma q sqrtT z then (1 : ℝ) else 0)
          * gbm_terminal S T r sigma q sqrtT z * sqrtT * z)
      let rm ← np_mean (final_stock_price.map fun sT =>
        (if K < sT then (1 : ℝ) else 0) * sT * T)
      pure (Real.exp (-r * T) * dm, Real.exp (-r * T) * vm / 100,
        Real.exp (-r * T) * rm)
    else if strLower option_type = "put" then do
      if S = 0 then (.error .nonFiniteResult : Except PyError (ℝ × ℝ × ℝ)) else
      let dm ← np_mean (final_stock_price.map fun sT =>
        (if sT < K then (1 : ℝ) else 0) * (-sT / S))
      let vm ← np_mean (Z.map fun z =>
        (if gbm_terminal S T r sigma q sqrtT z < K then (1 : ℝ) else 0)
          * (-(gbm_terminal S T r sigma q sqrtT z * sqrtT * z)))
      let rm ← np_mean (final_stock_price.map fun sT =>
        (if sT < K then (1 : ℝ) else 0) * (-(sT * T)))
      pure (Real.exp (-r * T) * dm, Real.exp (-r * T) * vm / 100,
        Real.exp (-r * T) * rm)
    else
      (.error .unboundLocal : Except PyError (ℝ × ℝ × ℝ))
  let (delta, vega, rho) := pathwise
  let stock_price_up := Z.map (gbm_terminal (S + h) T r sigma q sqrtT)
  let stock_price_down := Z.map (gbm_terminal (S - h) T r sigma q sqrtT)
  let payoff_up ←
    if strLower option_type = "call" then
      pure (stock_price_up.map fun sT => max (sT - K) 0)
    else if strLower option_type = "put" then
      pure (stock_price_up.map fun sT => max (K - sT) 0)
    else
      (.error .unboundLocal : Except PyError (List ℝ))
  let payoff_down ←
    if strLower option_type = "call" then
      pure (stock_price_down.map fun sT => max (sT - K) 0)
    else if strLower option_type = "put" then
      pure (stock_price_down.map fun sT => max (K - sT) 0)
    else
      (.error .unboundLocal : Except PyError (List ℝ))
  let mUp ← np_mean payoff_up
  let mDown ← np_mean payoff_down
  let option_price_up := Real.exp (-r * T) * mUp
  let option_price_down := Real.exp (-r * T) * mDown
  let gamma ← py_div (option_price_up - 2 * option_price + option_price_down) (h ^ 2)
  let time_dt := max (T - dt) 1e-8
  let sqrt_dt ← np_sqrt time_dt
  let final_price_dt := Z.map (gbm_terminal S time_dt r sigma q sqrt_dt)
  let payoff_dt ←
    if strLower option_type = "call" then
      pure (final_price_dt.map fun sT => max (sT - K) 0)
    else if strLower option_type = "put" then
      pure (final_price_dt.map fun sT => max (K - sT) 0)
    else
      (.error .unboundLocal : Except PyError (List ℝ))
  let mDt ← np_mean payoff_dt
  let price_dt := Real.exp (-r * time_dt) * mDt
  let theta ← py_div (price_dt - option_price) dt
  pure ⟨delta, gamma, theta, vega, rho⟩

@[simp]
lemma pure_eq_ok {α : Type} (a : α) : (pure a : Except PyError α) = .ok a := rfl

@[simp]
lemma strLower_call : strLower "call" = "call" := by decide

@[simp]
lemma strLower_put : strLower "put" = "put" := by decide

/-- Value of d1 on inputs where the source computes it without error. -/
noncomputable def d1_val (S K T r sigma q : ℝ) : ℝ :=
  (Real.log (S / K) + (r - q + 0.5 * sigma ^ 2) * T) / (sigma * Real.sqrt T)

/-- Value of d2 on inputs where the source computes it without error. -/
noncomputable def d2_val (S K T r sigma q : ℝ) : ℝ :=
  d1_val S K T r sigma q - sigma * Real.sqrt T

/-- Black-Scholes call value on inputs where the source computes it without
error. -/
noncomputable def bs_call_val (S K T r sigma q : ℝ) : ℝ :=
  S * Real.exp (-q * T) * normCdf (d1_val S K T r sigma q)
    - K * Real.exp (-r * T) * normCdf (d2_val S K T r sigma q)

/-- Black-Scholes put value on inputs where the source computes it without
error. -/
noncomputable def bs_put_val (S K T r sigma q : ℝ) : ℝ :=
  K * Real.exp (-r * T) * normCdf (-d2_val S K T r sigma q)
    - S * Real.exp (-q * T) * normCdf (-d1_val S K T r sigma q)

lemma bs_pricing_call_eval {S K T r sigma q : ℝ} (hS : 0 < S) (hK : 0 < K)
    (hT : 0 ≤ T) (hden : sigma * Real.sqrt T ≠ 0) :
    bs_pricing S K T r sigma "call" q = .ok (bs_call_val S K T r sigma q) := by
  have hs1 : sigma ≠ 0 := left_ne_zero_of_mul hden
  have hs2 : Real.sqrt T ≠ 0 := right_ne_zero_of_mul hden
  simp [bs_pricing, py_div, np_log, np_sqrt, np_div, hK.ne', (div_pos hS hK).not_le,
    not_lt.mpr hT, hs1, hs2, bs_call_val, d1_val, d2_val]

lemma bs_pricing_put_eval {S K T r sigma q : ℝ} (hS : 0 < S) (hK : 0 < K)
    (hT : 0 ≤ T) (hden : sigma * Real.sqrt T ≠ 0) :
    bs_pricing S K T r sigma "put" q = .ok (bs_put_val S K T r sigma q) := by
  have hs1 : sigma ≠ 0 := left_ne_zero_of_mul hden
  have hs2 : Real.sqrt T ≠ 0 := right_ne_zero_of_mul hden
  simp [bs_pricing, py_div, np_log, np_sqrt, np_div, hK.ne', (div_pos hS hK).not_le,
    not_lt.mpr hT, hs1, hs2, bs_put_val, d1_val, d2_val]

lemma d_1_eval {S K T r sigma q : ℝ} (hS : 0 < S) (hK : 0 < K)
    (hT : 0 ≤ T) (hden : sigma * Real.sqrt T ≠ 0) :
    d_1 S K T r sigma q = .ok (d1_val S K T r sigma q) := by
  have hs1 : sigma ≠ 0 := left_ne_zero_of_mul hden
  have hs2 : Real.sqrt T ≠ 0 := right_ne_zero_of_mul hden
  simp [d_1, py_div, math_log, math_sqrt, hK.ne', (div_pos hS hK).not_le,
    not_lt.mpr hT, hs1, hs2, d1_val]

lemma d_2_eval {S K T r sigma q : ℝ} (hS : 0 < S) (hK : 0 < K)
    (hT : 0 ≤ T) (hden : sigma * Real.sqrt T ≠ 0) :
    d_2 S K T r sigma q = .ok (d2_val S K T r sigma q) := by
  simp [d_2, d_1_eval hS hK hT hden, math_sqrt, not_lt.mpr hT, d2_val]

lemma bs_greeks_call_eval {S K T r sigma q : ℝ} (hS : 0 < S) (hK : 0 < K)
    (hT : 0 < T) (hsigma : sigma ≠ 0) :
    bs_greeks S K T r sigma "call" q =
      .ok ⟨Real.exp (-q * T) * normCdf (d1_val S K T r sigma q),
        Real.exp (-q * T) * normPdf (d1_val S K T r sigma q) / (S * sigma * Real.sqrt T),
        -(S * normPdf (d1_val S K T r sigma q) * sigma * Real.exp (-q * T) / (2 * Real.sqrt T)
          + q * S * normCdf (d1_val S K T r sigma q) * Real.exp (-q * T)
          - r * K * Real.exp (-r * T) * normCdf (d2_val S K T r sigma q)),
        S * Real.exp (-q * T) * normPdf (d1_val S K T r sigma q) * Real.sqrt T / 100,
        K * T * Real.exp (-r * T) * normCdf (d2_val S K T r sigma q)⟩ := by
  have hsq : Real.sqrt T ≠ 0 := (Real.sqrt_pos.mpr hT).ne'
  have hden : sigma * Real.sqrt T ≠ 0 := mul_ne_zero hsigma hsq
  have h2 : (2 : ℝ) * Real.sqrt T ≠ 0 := by positivity
  have h3 : S * sigma * Real.sqrt T ≠ 0 := mul_ne_zero (mul_ne_zero hS.ne' hsigma) hsq
  simp [bs_greeks, d_1_eval hS hK hT.le hden, d_2_eval hS hK hT.le hden,
    math_sqrt, not_lt.mpr hT.le, py_div, hS.ne', hsigma, hsq]

lemma bs_greeks_put_eval {S K T r sigma q : ℝ} (hS : 0 < S) (hK : 0 < K)
    (hT : 0 < T) (hsigma : sigma ≠ 0) :
    bs_greeks S K T r sigma "put" q =
      .ok ⟨Real.exp (-q * T) * (normCdf (d1_val S K T r sigma q) - 1),
        Real.exp (-q * T) * normPdf (d1_val S K T r sigma q) / (S * sigma * Real.sqrt T),
        -(S * normPdf (d1_val S K T r sigma q) * sigma * Real.exp (-q * T) / (2 * Real.sqrt T)
          - q * S * normCdf (-d1_val S K T r sigma q) * Real.exp (-q * T)
          + r * K * Real.exp (-r * T) * normCdf (-d2_val S K T r sigma q)),
        S * Real.exp (-q * T) * normPdf (d1_val S K T r sigma q) * Real.sqrt T / 100,
        -(K * T * Real.exp (-r * T) * normCdf (-d2_val S K T r sigma q))⟩ := by
  have hsq : Real.sqrt T ≠ 0 := (Real.sqrt_pos.mpr hT).ne'
  have hden : sigma * Real.sqrt T ≠ 0 := mul_ne_zero hsigma hsq
  have h2 : (2 : ℝ) * Real.sqrt T ≠ 0 := by positivity
  have h3 : S * sigma * Real.sqrt T ≠ 0 := mul_ne_zero (mul_ne_zero hS.ne' hsigma) hsq
  simp [bs_greeks, d_1_eval hS hK hT.le hden, d_2_eval hS hK hT.le hden,
    math_sqrt, not_lt.mpr hT.le, py_div, hS.ne', hsigma, hsq]

/-- C1: the claim says sigma = 0 or T = 0 is special-cased to the intrinsic
value so that no division by zero occurs. The source has no such special
case: d1 is computed unconditionally and its denominator sigma*sqrt(T) is
zero, so the division is reached and (at the money, 0/0) the price is NaN,
not the finite intrinsic value. This theorem evaluates the code at two such
inputs: sigma = 0 and T = 0. -/
theorem bs_pricing_degenerate_divides_by_zero :
    bs_pricing 100 100 1 0 0 "call" 0 = .error .nonFiniteResult ∧
    bs_pricing 100 100 0 (1/20) (1/5) "call" 0 = .error .nonFiniteResult := by
  constructor <;>
    norm_num [bs_pricing, py_div, np_log, np_sqrt, np_div, Real.sqrt_one, Real.sqrt_zero]

/-- C2: put-call parity. For every valid OptionSpec with positive S, K, T and
sigma, the call price minus the put price returned by bs_pricing equals
S·exp(-qT) - K·exp(-rT) exactly. -/
theorem bs_put_call_parity (S K T r sigma q : ℝ) (hS : 0 < S) (hK : 0 < K)
    (hT : 0 < T) (hsigma : 0 < sigma) :
    ∃ c p, bs_pricing S K T r sigma "call" q = .ok c ∧
      bs_pricing S K T r sigma "put" q = .ok p ∧
      c - p = S * Real.exp (-q * T) - K * Real.exp (-r * T) := by
  have hden : sigma * Real.sqrt T ≠ 0 :=
    mul_ne_zero hsigma.ne' (Real.sqrt_pos.mpr hT).ne'
  refine ⟨_, _, bs_pricing_call_eval hS hK hT.le hden,
    bs_pricing_put_eval hS hK hT.le hden, ?_⟩
  unfold bs_call_val bs_put_val
  rw [normCdf_neg (d2_val S K T r sigma q), normCdf_neg (d1_val S K T r sigma q)]
  ring

/-- Witness for C2 at S=100, K=100, T=1, r=1/20, sigma=1/5, q=0. -/
theorem bs_put_call_parity_witness :
    ∃ c p, bs_pricing 100 100 1 (1/20) (1/5) "call" 0 = .ok c ∧
      bs_pricing 100 100 1 (1/20) (1/5) "put" 0 = .ok p ∧
      c - p = 100 * Real.exp (-0 * 1) - 100 * Real.exp (-(1/20) * 1) :=
  bs_put_call_parity 100 100 1 (1/20) (1/5) 0 (by norm_num) (by norm_num)
    (by norm_num) (by norm_num)

/-- C8: delta parity. For every valid OptionSpec with sigma > 0 and T > 0 the
delta returned by bs_greeks for a call minus the delta returned for a put
equals exactly exp(-qT). -/
theorem bs_greeks_delta_parity (S K T r sigma q : ℝ) (hS : 0 < S) (hK : 0 < K)
    (hT : 0 < T) (hsigma : 0 < sigma) :
    ∃ gc gp, bs_greeks S K T r sigma "call" q = .ok gc ∧
      bs_greeks S K T r sigma "put" q = .ok gp ∧
      gc.delta - gp.delta = Real.exp (-q * T) := by
  refine ⟨_, _, bs_greeks_call_eval hS hK hT hsigma.ne',
    bs_greeks_put_eval hS hK hT hsigma.ne', ?_⟩
  simp only
  ring

/-- Witness for C8 at S=100, K=100, T=1, r=1/20, sigma=1/5, q=0. -/
theorem bs_greeks_delta_parity_witness :
    ∃ gc gp, bs_greeks 100 100 1 (1/20) (1/5) "call" 0 = .ok gc ∧
      bs_greeks 100 100 1 (1/20) (1/5) "put" 0 = .ok gp ∧
      gc.delta - gp.delta = Real.exp (-0 * 1) :=
  bs_greeks_delta_parity 100 100 1 (1/20) (1/5) 0 (by norm_num) (by norm_num)
    (by norm_num) (by norm_num)

/-- C5: the claim says each pricing operation (bs_pricing, mc_pricing,
bs_greeks, mc_greeks) fails fast with an InvalidArgument error on an option
kind that is not a case-insensitive variant of call or put. The source has
no such validation: every function falls through both kind branches, leaving
the payoff/price local unassigned, and crashes with UnboundLocalError when
that local is read — after the numeric work (d1/d2, or the simulated paths)
has already been carried out. -/
theorem invalid_kind_crashes_unbound_not_invalid_argument :
    bs_pricing 100 100 1 (1/20) (1/5) "straddle" 0 = .error .unboundLocal ∧
    mc_pricing 100 100 1 (1/20) (1/5) "straddle" [0] 0 = .error .unboundLocal ∧
    bs_greeks 100 100 1 (1/20) (1/5) "straddle" 0 = .error .unboundLocal ∧
    mc_greeks 100 100 1 (1/20) (1/5) "straddle" [0] (1/100) (1/365) 0
      = .error .unboundLocal := by
  have h1 : strLower "straddle" ≠ "call" := by decide
  have h2 : strLower "straddle" ≠ "put" := by decide
  refine ⟨?_, ?_, ?_, ?_⟩
  · norm_num [bs_pricing, py_div, np_log, np_sqrt, np_div, Real.sqrt_one, h1, h2]
  · norm_num [mc_pricing, np_sqrt, h1, h2]
  · norm_num [bs_greeks, d_1, py_div, math_log, math_sqrt, Real.sqrt_one, h1, h2]
  · norm_num [mc_greeks, np_sqrt, h1, h2]

/-- C6: the claim says every public operation rejects non-positive S (and
other invalid numerics) at its boundary with an InvalidArgument error before
computing. No operation validates anything: at S = -100, bs_pricing
propagates the NaN of np.log(-1) into its result, mc_pricing silently
returns the number 0.0 as if it were a price, and bs_greeks raises
ValueError from math.log deep inside the computation. -/
theorem negative_spot_not_rejected_at_boundary :
    bs_pricing (-100) 100 1 (1/20) (1/5) "call" 0 = .error .nonFiniteResult ∧
    mc_pricing (-100) 100 1 0 (1/5) "call" [0] 0 = .ok 0 ∧
    bs_greeks (-100) 100 1 (1/20) (1/5) "call" 0 = .error .valueError := by
  refine ⟨?_, ?_, ?_⟩
  · norm_num [bs_pricing, py_div, np_log]
  · have hx : (-100 : ℝ) * Real.exp ((0 - 0 - 0.5 * (1/5) ^ 2) * 1 + 1/5 * Real.sqrt 1 * 0)
        - 100 ≤ 0 := by
      have := Real.exp_pos ((0 - 0 - 0.5 * ((1:ℝ)/5) ^ 2) * 1 + 1/5 * Real.sqrt 1 * 0)
      nlinarith
    norm_num [mc_pricing, np_sqrt, np_mean, gbm_terminal, max_eq_right hx]
    nlinarith [Real.exp_pos (-(1/50) : ℝ)]
  · norm_num [bs_greeks, d_1, py_div, math_log]

/-- Payoff of one path as the spec describes it: max(S_T - K, 0) for calls,
max(K - S_T, 0) for puts. -/
noncomputable def mc_payoff_spec (K : ℝ) (isCall : Bool) (sT : ℝ) : ℝ :=
  if isCall then max (sT - K) 0 else max (K - sT) 0

/-- Monte Carlo price as the spec describes it: discounted mean payoff over
the terminal prices S·exp((r-q-sigma²/2)T + sigma·sqrt(T)·Z_i). -/
noncomputable def mc_price_spec (S K T r sigma q : ℝ) (isCall : Bool) (Z : List ℝ) : ℝ :=
  Real.exp (-r * T) *
    ((Z.map fun z => mc_payoff_spec K isCall
      (S * Real.exp ((r - q - 0.5 * sigma ^ 2) * T + sigma * Real.sqrt T * z))).sum
      / Z.length)

lemma mc_pricing_call_eval {S K T r sigma q : ℝ} {Z : List ℝ} (hT : 0 ≤ T)
    (hZ : Z ≠ []) :
    mc_pricing S K T r sigma "call" Z q = .ok (mc_price_spec S K T r sigma q true Z) := by
  simp [mc_pricing, np_sqrt, not_lt.mpr hT, np_mean, List.isEmpty_iff, hZ,
    mc_price_spec, mc_payoff_spec, gbm_terminal, List.map_map, Function.comp_def]

lemma mc_pricing_put_eval {S K T r sigma q : ℝ} {Z : List ℝ} (hT : 0 ≤ T)
    (hZ : Z ≠ []) :
    mc_pricing S K T r sigma "put" Z q = .ok (mc_price_spec S K T r sigma q false Z) := by
  simp [mc_pricing, np_sqrt, not_lt.mpr hT, np_mean, List.isEmpty_iff, hZ,
    mc_price_spec, mc_payoff_spec, gbm_terminal, List.map_map, Function.comp_def]

/-- C7: for every option spec with T ≥ 0 and a nonempty fixed vector Z of
standard-normal draws, mc_pricing returns exactly the discounted mean payoff
e^(-rT)·mean(payoff) over the terminal prices
S·exp((r-q-sigma²/2)T + sigma·sqrt(T)·Z_i), with the call and put payoffs
as the spec states them. -/
theorem mc_pricing_matches_spec (S K T r sigma q : ℝ) (Z : List ℝ) (hT : 0 ≤ T)
    (hZ : Z ≠ []) :
    mc_pricing S K T r sigma "call" Z q = .ok (mc_price_spec S K T r sigma q true Z) ∧
    mc_pricing S K T r sigma "put" Z q = .ok (mc_price_spec S K T r sigma q false Z) :=
  ⟨mc_pricing_call_eval hT hZ, mc_pricing_put_eval hT hZ⟩

/-- Witness for C7 at S=100, K=100, T=1, r=1/20, sigma=1/5, q=0, Z=[0]. -/
theorem mc_pricing_matches_spec_witness :
    mc_pricing 100 100 1 (1/20) (1/5) "call" [0] 0
      = .ok (mc_price_spec 100 100 1 (1/20) (1/5) 0 true [0]) ∧
    mc_pricing 100 100 1 (1/20) (1/5) "put" [0] 0
      = .ok (mc_price_spec 100 100 1 (1/20) (1/5) 0 false [0]) :=
  mc_pricing_matches_spec 100 100 1 (1/20) (1/5) 0 [0] (by norm_num) (by simp)

/-- C9 counterexample: the claim says mc_convergence returns a sequence of
(path count, price) pairs whose i-th path count equals the i-th requested
count. The source returns a bare list of prices: a run requested at path
count 1 and a run requested at path count 2 produce the identical output
.ok [0], so the output carries no path-count component at all (the claimed
pair outputs would differ in their first components, 1 versus 2). -/
theorem mc_convergence_output_has_no_path_counts :
    mc_convergence 1 1 1 0 1 "call" 0 [[0]] = .ok [0] ∧
    mc_convergence 1 1 1 0 1 "call" 0 [[0, 0]] = .ok [0] ∧ (1 : ℕ) ≠ 2 := by
  have hlt : (1 : ℝ) * Real.exp ((0 - 0 - 0.5 * 1 ^ 2) * 1 + 1 * Real.sqrt 1 * 0) - 1 ≤ 0 := by
    have h := Real.exp_lt_one_iff.mpr (show ((0:ℝ) - 0 - 0.5 * 1 ^ 2) * 1 + 1 * Real.sqrt 1 * 0 < 0 by
      norm_num [Real.sqrt_one])
    nlinarith
  refine ⟨?_, ?_, by norm_num⟩ <;>
    norm_num [mc_convergence, mc_pricing, np_sqrt, np_mean, List.isEmpty,
      gbm_terminal, max_eq_right hlt]

lemma mc_convergence_eval_aux (S K T r sigma q : ℝ) (k : String) (b : Bool)
    (heval : ∀ Z : List ℝ, Z ≠ [] →
      mc_pricing S K T r sigma k Z q = .ok (mc_price_spec S K T r sigma q b Z)) :
    ∀ Zs : List (List ℝ), (∀ Z ∈ Zs, Z ≠ []) →
      mc_convergence S K T r sigma k q Zs
        = .ok (Zs.map (mc_price_spec S K T r sigma q b)) := by
  intro Zs
  induction Zs with
  | nil => intro _; simp [mc_convergence]
  | cons Z rest ih =>
    intro hne
    have hZ : Z ≠ [] := hne Z (List.mem_cons_self Z rest)
    have hrest := ih fun W hW => hne W (List.mem_cons_of_mem Z hW)
    simp [mc_convergence, heval Z hZ, hrest]

/-- C9 as amended: for every input sequence of path counts and either option
kind, mc_convergence returns the ordered list of prices only — its i-th
element is the Monte Carlo evaluation at the i-th requested path count
(here, at the i-th supplied draw vector), in input order; the path counts
themselves are not part of the return value. -/
theorem mc_convergence_prices_in_input_order (S K T r sigma q : ℝ)
    (Zs : List (List ℝ)) (hT : 0 ≤ T) (hne : ∀ Z ∈ Zs, Z ≠ []) :
    mc_convergence S K T r sigma "call" q Zs
      = .ok (Zs.map (mc_price_spec S K T r sigma q true)) ∧
    mc_convergence S K T r sigma "put" q Zs
      = .ok (Zs.map (mc_price_spec S K T r sigma q false)) :=
  ⟨mc_convergence_eval_aux S K T r sigma q "call" true
      (fun _ hZ => mc_pricing_call_eval hT hZ) Zs hne,
    mc_convergence_eval_aux S K T r sigma q "put" false
      (fun _ hZ => mc_pricing_put_eval hT hZ) Zs hne⟩

/-- Witness for the amended C9 at two requested path counts (1 and 2), for
both option kinds. -/
theorem mc_convergence_prices_in_input_order_witness :
    mc_convergence 100 100 1 (1/20) (1/5) "call" 0 [[0], [0, 0]]
      = .ok ([[0], [0, 0]].map (mc_price_spec 100 100 1 (1/20) (1/5) 0 true)) ∧
    mc_convergence 100 100 1 (1/20) (1/5) "put" 0 [[0], [0, 0]]
      = .ok ([[0], [0, 0]].map (mc_price_spec 100 100 1 (1/20) (1/5) 0 false)) := by
  refine mc_convergence_prices_in_input_order 100 100 1 (1/20) (1/5) 0 [[0], [0, 0]]
    (by norm_num) ?_
  intro Z hZ
  rcases List.mem_cons.mp hZ with h | h
  · subst h; simp
  · rcases List.mem_cons.mp h with h2 | h2
    · subst h2; simp
    · cases h2

lemma newton_phase_succ (market_price S K T r tol q sigma m : ℝ) (k : String)
    (fuel : ℕ) (g : Greeks)
    (hm : bs_pricing S K T r sigma k q = .ok m)
    (hg : bs_greeks S K T r sigma k q = .ok g) :
    newton_phase market_price S K T r k tol q (fuel + 1) sigma =
      (if |m - market_price| < tol * max 1 market_price then .ok (some sigma)
       else if g.vega < 1e-8 then .ok none
       else newton_phase market_price S K T r k tol q fuel
         (max (min (sigma - (m - market_price) / g.vega) 5) 1e-6)) := by
  rw [newton_phase, hm, hg]
  rfl

/-- C3: the Newton-Raphson phase of implied_volatility starts at sigma = 0.3
(first conjunct, the definitional shape of the solver), and one Newton
iteration with model price m and Greeks g behaves exactly as the spec says:
return sigma when |m - market| < tolerance·max(1, market); otherwise fall
through to bisection when vega < 1e-8; otherwise update sigma by the Newton
step (m - market)/vega and clamp it into [1e-6, 5.0] (second conjunct). -/
theorem implied_volatility_newton_spec (market_price S K T r tol q sigma m : ℝ)
    (k : String) (n fuel : ℕ) (g : Greeks)
    (hm : bs_pricing S K T r sigma k q = .ok m)
    (hg : bs_greeks S K T r sigma k q = .ok g) :
    (implied_volatility market_price S K T r k tol n q =
      (newton_phase market_price S K T r k tol q n 0.3 >>= fun nres =>
        match nres with
        | some s => pure (some s)
        | none => bisection_phase market_price S K T r k
            (tol * max 1 market_price) q n 1e-6 5)) ∧
    newton_phase market_price S K T r k tol q (fuel + 1) sigma =
      (if |m - market_price| < tol * max 1 market_price then .ok (some sigma)
       else if g.vega < 1e-8 then .ok none
       else newton_phase market_price S K T r k tol q fuel
         (max (min (sigma - (m - market_price) / g.vega) 5) 1e-6)) :=
  ⟨rfl, newton_phase_succ market_price S K T r tol q sigma m k fuel g hm hg⟩

lemma bisection_phase_succ (market_price S K T r tolp q low high m : ℝ) (k : String)
    (fuel : ℕ) (hm : bs_pricing S K T r ((low + high) / 2) k q = .ok m) :
    bisection_phase market_price S K T r k tolp q (fuel + 1) low high =
      (if |m - market_price| < tolp then .ok (some ((low + high) / 2))
       else if m > market_price then
         bisection_phase market_price S K T r k tolp q fuel low ((low + high) / 2)
       else
         bisection_phase market_price S K T r k tolp q fuel ((low + high) / 2) high) := by
  rw [bisection_phase, hm]
  rfl

lemma bs_call_val_le_spot {S K T r sigma q : ℝ} (hS : 0 < S) (hK : 0 < K)
    (hq : 0 ≤ q) (hT : 0 ≤ T) :
    bs_call_val S K T r sigma q ≤ S := by
  unfold bs_call_val
  have h1 : Real.exp (-q * T) ≤ 1 := by
    have h := Real.exp_le_exp.mpr (show -q * T ≤ 0 by nlinarith)
    rwa [Real.exp_zero] at h
  have h2 := normCdf_le_one (d1_val S K T r sigma q)
  have h3 := normCdf_nonneg (d1_val S K T r sigma q)
  have h4 := normCdf_nonneg (d2_val S K T r sigma q)
  have h6 := (Real.exp_pos (-r * T)).le
  have e1N : Real.exp (-q * T) * normCdf (d1_val S K T r sigma q) ≤ 1 :=
    mul_le_one₀ h1 h3 h2
  nlinarith [mul_le_mul_of_nonneg_left e1N hS.le,
    mul_nonneg (mul_nonneg hK.le h6) h4]

lemma newton_phase_none {market_price S K T r tol q : ℝ} (hS : 0 < S) (hK : 0 < K)
    (hT : 0 < T)
    (hfail : ∀ sigma : ℝ, 0 < sigma →
      ¬ |bs_call_val S K T r sigma q - market_price| < tol * max 1 market_price) :
    ∀ fuel (sigma : ℝ), 0 < sigma →
      newton_phase market_price S K T r "call" tol q fuel sigma = .ok none := by
  intro fuel
  induction fuel with
  | zero => intro sigma _; rfl
  | succ n ih =>
    intro sigma hsig
    have hden : sigma * Real.sqrt T ≠ 0 :=
      mul_ne_zero hsig.ne' (Real.sqrt_pos.mpr hT).ne'
    rw [newton_phase_succ market_price S K T r tol q sigma _ "call" n _
      (bs_pricing_call_eval hS hK hT.le hden) (bs_greeks_call_eval hS hK hT hsig.ne')]
    rw [if_neg (hfail sigma hsig)]
    split
    · rfl
    · exact ih _ (lt_of_lt_of_le (by norm_num) (le_max_right _ 1e-6))

lemma bisection_phase_none {market_price S K T r tolp q : ℝ} (hS : 0 < S) (hK : 0 < K)
    (hT : 0 < T)
    (hfail : ∀ sigma : ℝ, 0 < sigma →
      ¬ |bs_call_val S K T r sigma q - market_price| < tolp) :
    ∀ fuel (low high : ℝ), 0 < low → 0 < high →
      bisection_phase market_price S K T r "call" tolp q fuel low high = .ok none := by
  intro fuel
  induction fuel with
  | zero => intro low high _ _; rfl
  | succ n ih =>
    intro low high hlow hhigh
    have hmid : 0 < (low + high) / 2 := by positivity
    have hden : (low + high) / 2 * Real.sqrt T ≠ 0 :=
      mul_ne_zero hmid.ne' (Real.sqrt_pos.mpr hT).ne'
    rw [bisection_phase_succ market_price S K T r tolp q low high _ "call" n
      (bs_pricing_call_eval hS hK hT.le hden)]
    rw [if_neg (hfail _ hmid)]
    split
    · exact ih low ((low + high) / 2) hlow hmid
    · exact ih ((low + high) / 2) high hmid hhigh

/-- C4 as amended: when the market price exceeds the spot price S by at least
the tolerance allowance tolerance·max(1, market price) — so that no sigma can
bring the call model price within tolerance, the call price never exceeding S
for r, q ≥ 0 — both phases exhaust and implied_volatility returns the
explicit not-found signal None, never a numeric sigma. -/
theorem implied_volatility_infeasible_price_returns_none
    (market_price S K T r tol q : ℝ) (n : ℕ)
    (hS : 0 < S) (hK : 0 < K) (hT : 0 < T) (hq : 0 ≤ q)
    (hmkt : S + tol * max 1 market_price ≤ market_price) :
    implied_volatility market_price S K T r "call" tol n q = .ok none := by
  have hfail : ∀ sigma : ℝ, 0 < sigma →
      ¬ |bs_call_val S K T r sigma q - market_price| < tol * max 1 market_price := by
    intro sigma hsig hcon
    have hle := @bs_call_val_le_spot S K T r sigma q hS hK hq hT.le
    rw [abs_lt] at hcon
    linarith [hcon.1]
  have hnew := newton_phase_none hS hK hT hfail n 0.3 (by norm_num)
  have hbis := bisection_phase_none hS hK hT hfail n 1e-6 5 (by norm_num) (by norm_num)
  rw [implied_volatility, hnew]
  simpa using hbis

/-- Witness for the amended C4: market price 2 on spot 1 with tolerance 1/2
makes the solver return None. -/
theorem implied_volatility_infeasible_price_returns_none_witness :
    implied_volatility 2 1 1 1 0 "call" (1/2) 5 0 = .ok none :=
  implied_volatility_infeasible_price_returns_none 2 1 1 1 0 (1/2) 0 5
    (by norm_num) (by norm_num) (by norm_num) (by norm_num)
    (by rw [max_eq_right (by norm_num : (1:ℝ) ≤ 2)]; norm_num)

lemma bs_call_val_benchmark :
    bs_call_val 1 1 1 0 0.3 0 = 2 * normCdf (3/20) - 1 := by
  have h : bs_call_val 1 1 1 0 0.3 0 = normCdf (3/20) - normCdf (-(3/20)) := by
    simp only [bs_call_val, d2_val, d1_val]
    rw [Real.sqrt_one]
    norm_num
  rw [h, normCdf_neg]
  ring

lemma benchmark_tolerance_met :
    |bs_call_val 1 1 1 0 0.3 0 - 1.001| < 1 * max 1 1.001 := by
  have h1 : normCdf 0 < normCdf (3/20) := normCdf_strictMonoOn (by norm_num)
  rw [normCdf_zero] at h1
  have h2 := normCdf_le_one (3/20 : ℝ)
  rw [bs_call_val_benchmark]
  rw [max_eq_right (by norm_num : (1:ℝ) ≤ 1.001)]
  rw [abs_lt]
  constructor <;> nlinarith

lemma implied_volatility_benchmark_eval :
    implied_volatility 1.001 1 1 1 0 "call" 1 100 0 = .ok (some 0.3) := by
  have hden : (0.3 : ℝ) * Real.sqrt 1 ≠ 0 := by
    rw [Real.sqrt_one]; norm_num
  have hm := @bs_pricing_call_eval 1 1 1 0 0.3 0 (by norm_num) (by norm_num)
    (by norm_num) hden
  have hg := @bs_greeks_call_eval 1 1 1 0 0.3 0 (by norm_num) (by norm_num)
    (by norm_num) (by norm_num)
  have hstep := newton_phase_succ 1.001 1 1 1 0 1 0 0.3 _ "call" 99 _ hm hg
  rw [implied_volatility, show (100 : ℕ) = 99 + 1 from rfl, hstep,
    if_pos benchmark_tolerance_met]
  rfl

/-- C4 counterexample: the claim asserts that for every call input whose
market price exceeds the maximum feasible model price (e.g., above S) the
solver returns the null signal. At market price 1.001 > S = 1 with tolerance
1, the very first Newton iterate already satisfies the relative tolerance
test (the price error 1.001 - price lies below tolerance·max(1, market)),
so implied_volatility returns the numeric sigma 0.3 instead of None. -/
theorem implied_volatility_spurious_sigma_above_spot :
    implied_volatility 1.001 1 1 1 0 "call" 1 100 0 = .ok (some 0.3) ∧
    (1 : ℝ) < 1.001 :=
  ⟨implied_volatility_benchmark_eval, by norm_num⟩

/-- Witness for C3 at the benchmark input: applying the per-iteration
characterization at fuel 99+1 and sigma 0.3 shows the Newton phase returns
sigma = 0.3 there, the tolerance test being met. -/
theorem implied_volatility_newton_spec_witness :
    newton_phase 1.001 1 1 1 0 "call" 1 0 100 0.3 = .ok (some 0.3) := by
  have hden : (0.3 : ℝ) * Real.sqrt 1 ≠ 0 := by
    rw [Real.sqrt_one]; norm_num
  have hm := @bs_pricing_call_eval 1 1 1 0 0.3 0 (by norm_num) (by norm_num)
    (by norm_num) hden
  have hg := @bs_greeks_call_eval 1 1 1 0 0.3 0 (by norm_num) (by norm_num)
    (by norm_num) (by norm_num)
  have h := (implied_volatility_newton_spec 1.001 1 1 1 0 1 0 0.3 _ "call" 100 99 _
    hm hg).2
  rw [show (100 : ℕ) = 99 + 1 from rfl, h, if_pos benchmark_tolerance_met]

lemma newton_phase_mem (market_price S K T r tol q : ℝ) (k : String) :
    ∀ (fuel : ℕ) (sigma s : ℝ), 1e-6 ≤ sigma → sigma ≤ 5 →
      newton_phase market_price S K T r k tol q fuel sigma = .ok (some s) →
      1e-6 ≤ s ∧ s ≤ 5 := by
  intro fuel
  induction fuel with
  | zero =>
    intro sigma s _ _ hres
    simp [newton_phase] at hres
  | succ n ih =>
    intro sigma s h1 h2 hres
    rw [newton_phase] at hres
    cases hbp : bs_pricing S K T r sigma k q with
    | error e => rw [hbp] at hres; simp at hres
    | ok m =>
      cases hbg : bs_greeks S K T r sigma k q with
      | error e => rw [hbp, hbg] at hres; simp at hres
      | ok g =>
        rw [hbp, hbg] at hres
        simp only [ok_bind] at hres
        by_cases hc1 : |m - market_price| < tol * max 1 market_price
        · rw [if_pos hc1] at hres
          have hs : sigma = s := by simpa using hres
          subst hs
          exact ⟨h1, h2⟩
        · rw [if_neg hc1] at hres
          by_cases hc2 : g.vega < 1e-8
          · rw [if_pos hc2] at hres; simp at hres
          · rw [if_neg hc2] at hres
            exact ih _ s (le_max_right _ _)
              (max_le (le_trans (min_le_right _ _) le_rfl) (by norm_num)) hres

lemma bisection_phase_mem (market_price S K T r tolp q : ℝ) (k : String) :
    ∀ (fuel : ℕ) (low high s : ℝ), 1e-6 ≤ low → low ≤ high → high ≤ 5 →
      bisection_phase market_price S K T r k tolp q fuel low high = .ok (some s) →
      1e-6 ≤ s ∧ s ≤ 5 := by
  intro fuel
  induction fuel with
  | zero =>
    intro low high s _ _ _ hres
    simp [bisection_phase] at hres
  | succ n ih =>
    intro low high s h1 h2 h3 hres
    rw [bisection_phase] at hres
    cases hbp : bs_pricing S K T r ((low + high) / 2) k q with
    | error e => rw [hbp] at hres; simp at hres
    | ok m =>
      rw [hbp] at hres
      simp only [ok_bind] at hres
      by_cases hc1 : |m - market_price| < tolp
      · rw [if_pos hc1] at hres
        have hs : (low + high) / 2 = s := by simpa using hres
        subst hs
        constructor <;> linarith
      · rw [if_neg hc1] at hres
        by_cases hc2 : m > market_price
        · rw [if_pos hc2] at hres
          exact ih low ((low + high) / 2) s h1 (by linarith) (by linarith) hres
        · rw [if_neg hc2] at hres
          exact ih ((low + high) / 2) high s (by linarith) (by linarith) h3 hres

/-- C10: whenever implied_volatility returns a numeric sigma (not the null
not-found signal), that sigma lies in the closed interval [1e-6, 5]: the
initial guess 0.3 is inside, every Newton update is clamped into the
interval, and every bisection midpoint stays inside it. -/
theorem implied_volatility_result_in_bounds (market_price S K T r tol q : ℝ)
    (k : String) (n : ℕ) (s : ℝ)
    (hres : implied_volatility market_price S K T r k tol n q = .ok (some s)) :
    1e-6 ≤ s ∧ s ≤ 5 := by
  rw [implied_volatility] at hres
  cases hn : newton_phase market_price S K T r k tol q n 0.3 with
  | error e => rw [hn] at hres; simp at hres
  | ok onres =>
    rw [hn] at hres
    simp only [ok_bind] at hres
    cases onres with
    | some sig =>
      have hs : sig = s := by simpa using hres
      subst hs
      exact newton_phase_mem market_price S K T r tol q k n 0.3 sig
        (by norm_num) (by norm_num) hn
    | none =>
      exact bisection_phase_mem market_price S K T r (tol * max 1 market_price) q k
        n 1e-6 5 s (by norm_num) (by norm_num) (by norm_num) hres

/-- Witness for C10 at the benchmark input, where the solver returns the
numeric sigma 0.3. -/
theorem implied_volatility_result_in_bounds_witness :
    (1e-6 : ℝ) ≤ 0.3 ∧ (0.3 : ℝ) ≤ 5 :=
  implied_volatility_result_in_bounds 1.001 1 1 1 0 1 0 "call" 100 0.3
    implied_volatility_benchmark_eval
